import Mathlib

/-!
The functions `add`, `fibonacci` and `main` of practical-cmake.

A shallow embedding of `src/fibo/src/fibo.cpp` and `src/main.cpp`, together
with the part of `add/add.h` that they rely on.

* C++ `int` values are integers of the range `INT_MIN .. INT_MAX` (32 bits).
* A run of a function is an `Exec`: the calls made, in order, and the value
  returned, or no value when `assert` aborted the process.
* A run of the program is a `Proc`: the text written to standard output and
  the exit status.
* What the language leaves open is a `Platform`: the value an overflowing
  `int` addition produces and the order in which the two arguments of a call
  are evaluated.
-/

namespace PracticalCMake

/-! ## The `int` type -/

/-- Smallest value of a 32-bit `int`. -/
def INT_MIN : Int := -2147483648

/-- Largest value of a 32-bit `int`. -/
def INT_MAX : Int := 2147483647

/-- The integer `x` is a value of type `int`. -/
def InRange (x : Int) : Prop := INT_MIN ≤ x ∧ x ≤ INT_MAX

instance (x : Int) : Decidable (InRange x) :=
  inferInstanceAs (Decidable (INT_MIN ≤ x ∧ x ≤ INT_MAX))

/-- Two's complement reduction of an integer to the `int` range. -/
def wrap32 (x : Int) : Int := (x + 2147483648) % 4294967296 - 2147483648

/-! ## Platform -/

/-- The choices C++ leaves to the implementation: `overflow a b` is the `int`
produced by `a + b` when the exact sum is not representable, and
`leftToRight` tells whether the arguments of a call are evaluated left to
right or right to left (the same order at every call). -/
structure Platform where
  overflow : Int → Int → Int
  overflow_inRange : ∀ a b, InRange (overflow a b)
  leftToRight : Bool

/-! ## Runs -/

/-- A function call observed during a run, with its arguments. -/
inductive Call where
  | fibonacci (n : Int)
  | add (a b : Int)
  deriving DecidableEq

/-- A run: the calls made so far, oldest first, and the value returned, or
`none` when the process was aborted by a failed `assert`. -/
structure Exec (α : Type) where
  trace : List Call
  value : Option α

/-- A run that returns `a` and calls nothing. -/
def Exec.ret {α : Type} (a : α) : Exec α := ⟨[], some a⟩

/-- Sequencing: the second run starts only when the first returned. -/
def Exec.andThen {α β : Type} (m : Exec α) (f : α → Exec β) : Exec β :=
  match m.value with
  | none => ⟨m.trace, none⟩
  | some a => ⟨m.trace ++ (f a).trace, (f a).value⟩

instance : Monad Exec where
  pure := Exec.ret
  bind := Exec.andThen

/-- Record the entry into a function. -/
def enter (c : Call) : Exec Unit := ⟨[c], some ()⟩

/-- A failed `assert`: the process aborts and nothing is returned. -/
def abort {α : Type} : Exec α := ⟨[], none⟩

/-! ## `add` -/

/-- Modelled from the spec: `add` of `add/add.h`, whose definition is not among
the sources. It returns the arithmetic sum of its two arguments, checks
nothing and never fails; when the sum is not representable the result is
whatever the platform's `int` addition gives. -/
def add (P : Platform) (a b : Int) : Int :=
  if InRange (a + b) then a + b else P.overflow a b

/-- A call of `add` from instrumented code. -/
def callAdd (P : Platform) (a b : Int) : Exec Int := do
  enter (Call.add a b)
  return add P a b

/-! ## `fibonacci` (src/fibo/src/fibo.cpp) -/

/-- The function `fibonacci` of `fibo.cpp`, with `assert` enabled:
the assertion `n > 0`, the base cases `n == 1 || n == 2`, and otherwise
`add(fibonacci(n-1), fibonacci(n-2))` with the two arguments evaluated in the
platform's order. The assertion is the outer `if`: its `else` branch aborts.
The subtractions `n - 1` and `n - 2` are only reached with `n ≥ 3`, where they
are exact in `int`. The recursion is well founded on `n.toNat`. -/
def fibonacci (P : Platform) (n : Int) : Exec Int := do
  enter (Call.fibonacci n)
  if h : n > 0 then
    if h12 : n = 1 ∨ n = 2 then
      return 1
    else if P.leftToRight then
      let x ← fibonacci P (n - 1)
      let y ← fibonacci P (n - 2)
      callAdd P x y
    else
      let y ← fibonacci P (n - 2)
      let x ← fibonacci P (n - 1)
      callAdd P x y
  else
    abort
termination_by n.toNat
decreasing_by all_goals omega

/-! ## The textbook sequence -/

/-- The Fibonacci sequence in the spec's words: `F(1) = F(2) = 1` and
`F(n) = F(n-1) + F(n-2)` for `n ≥ 3`. The index 0, outside the spec's range,
is given the value 0. -/
def F : Nat → Nat
  | 0 => 0
  | 1 => 1
  | 2 => 1
  | (n + 3) => F (n + 2) + F (n + 1)

/-! ## Counting calls -/

/-- Number of calls of `add` in a trace. -/
def addCalls (t : List Call) : Nat :=
  t.countP fun c => match c with
    | Call.add _ _ => true
    | Call.fibonacci _ => false

/-- Number of calls of `fibonacci` in a trace. -/
def fibonacciCalls (t : List Call) : Nat :=
  t.countP fun c => match c with
    | Call.add _ _ => false
    | Call.fibonacci _ => true

/-! ## The demonstration program (src/main.cpp) -/

/-- A run of a program that prints: the text written to standard output so
far, and the value returned, or `none` when the process was aborted. -/
structure Proc (α : Type) where
  stdout : String
  value : Option α

/-- A program run that returns `a` and prints nothing. -/
def Proc.ret {α : Type} (a : α) : Proc α := ⟨"", some a⟩

/-- Sequencing of program runs: the output of the second follows the output of
the first, and the second starts only when the first returned. -/
def Proc.andThen {α β : Type} (m : Proc α) (f : α → Proc β) : Proc β :=
  match m.value with
  | none => ⟨m.stdout, none⟩
  | some a => ⟨m.stdout ++ (f a).stdout, (f a).value⟩

instance : Monad Proc where
  pure := Proc.ret
  bind := Proc.andThen

/-- The run of a function called from the program; a failed assertion in it
aborts the program. -/
def Proc.call {α : Type} (e : Exec α) : Proc α := ⟨"", e.value⟩

/-- Write a formatted text to standard output. -/
def printf (text : String) : Proc Unit := ⟨text, some ()⟩

/-- The conversion `%d` of `printf`: an `int` in decimal, with a minus sign
when negative. -/
def fmt_d (x : Int) : String := toString x

/-- The loop `for (int i = 1; i <= 10; i++)` of `main`, from the value `i` of
the loop variable on. -/
def main_loop (P : Platform) (i : Int) : Proc Unit :=
  if h : i ≤ 10 then do
    let r ← Proc.call (fibonacci P i)
    printf ("fibo(" ++ fmt_d i ++ ") = " ++ fmt_d r ++ "\n")
    main_loop P (i + 1)
  else
    pure ()
termination_by (11 - i).toNat
decreasing_by omega

/-- The function `main` of `main.cpp`; the value returned is the exit status. -/
def main (P : Platform) : Proc Int := do
  let a : Int := 1
  let b : Int := 2
  printf ("a = " ++ fmt_d a ++ ", b = " ++ fmt_d b ++ "\n")
  let c ← Proc.call (callAdd P a b)
  printf ("a + b = " ++ fmt_d c ++ "\n")
  main_loop P 1
  return 0

/-! ## Nested calls -/

/-- The call `fibonacci(k)` is made while `fibonacci(n)` is evaluated, the
outer call itself apart. -/
def NestedCall (P : Platform) (k n : Int) : Prop :=
  Call.fibonacci k ∈ (fibonacci P n).trace.tail

/-! ## Concrete platforms -/

/-- The usual platform: two's complement wrap-around, arguments evaluated
left to right. -/
def wrapping : Platform where
  overflow a b := wrap32 (a + b)
  overflow_inRange a b := by
    show InRange (wrap32 (a + b))
    unfold InRange wrap32 INT_MIN INT_MAX
    omega
  leftToRight := true

/-- Wrap-around with the arguments evaluated right to left. -/
def wrappingRtl : Platform where
  overflow a b := wrap32 (a + b)
  overflow_inRange a b := by
    show InRange (wrap32 (a + b))
    unfold InRange wrap32 INT_MIN INT_MAX
    omega
  leftToRight := false

/-! ## Unfolding `fibonacci` -/

theorem fibonacci_of_nonpos (P : Platform) (n : Int) (h : n ≤ 0) :
    fibonacci P n = ⟨[Call.fibonacci n], none⟩ := by
  rw [fibonacci]
  have h0 : ¬ n > 0 := by omega
  simp [bind, Exec.andThen, enter, abort, h0]

theorem fibonacci_of_base (P : Platform) (n : Int) (h : n = 1 ∨ n = 2) :
    fibonacci P n = ⟨[Call.fibonacci n], some 1⟩ := by
  rw [fibonacci]
  have h0 : n > 0 := by omega
  simp [bind, pure, Exec.andThen, Exec.ret, enter, h0, h]

theorem fibonacci_of_step (P : Platform) (n x y : Int) (h : 3 ≤ n)
    (hx : (fibonacci P (n - 1)).value = some x)
    (hy : (fibonacci P (n - 2)).value = some y) :
    fibonacci P n =
      ⟨Call.fibonacci n ::
          ((if P.leftToRight then (fibonacci P (n - 1)).trace ++ (fibonacci P (n - 2)).trace
            else (fibonacci P (n - 2)).trace ++ (fibonacci P (n - 1)).trace)
            ++ [Call.add x y]),
        some (add P x y)⟩ := by
  rw [fibonacci]
  have h0 : n > 0 := by omega
  have h12 : ¬ (n = 1 ∨ n = 2) := by omega
  cases hP : P.leftToRight <;>
    simp [bind, pure, Exec.andThen, Exec.ret, enter, callAdd, h0, h12, hx, hy, hP]

/-- Induction along the recursion of `fibonacci`: the base cases 1 and 2, and
from `n - 1` and `n - 2` to `n` when `n ≥ 3`. -/
theorem fibonacci_induction {motive : Int → Prop}
    (base : ∀ n : Int, n = 1 ∨ n = 2 → motive n)
    (step : ∀ n : Int, 3 ≤ n → motive (n - 1) → motive (n - 2) → motive n)
    (n : Int) (h : 0 < n) : motive n := by
  obtain ⟨k, rfl⟩ : ∃ k : Nat, n = k := ⟨n.toNat, by omega⟩
  induction k using Nat.strong_induction_on with
  | _ k ih =>
    by_cases hb : (k : Int) = 1 ∨ (k : Int) = 2
    · exact base _ hb
    · have h1 := ih (k - 1) (by omega) (by omega)
      have h2 := ih (k - 2) (by omega) (by omega)
      rw [show ((k - 1 : Nat) : Int) = (k : Int) - 1 by omega] at h1
      rw [show ((k - 2 : Nat) : Int) = (k : Int) - 2 by omega] at h2
      exact step _ (by omega) h1 h2

theorem fibonacci_returns (P : Platform) (n : Int) (h : 0 < n) :
    ∃ v, (fibonacci P n).value = some v := by
  refine fibonacci_induction (motive := fun n => ∃ v, (fibonacci P n).value = some v)
    ?_ ?_ n h
  · intro n hb
    exact ⟨1, by rw [fibonacci_of_base P n hb]⟩
  · rintro n h3 ⟨x, hx⟩ ⟨y, hy⟩
    exact ⟨add P x y, by rw [fibonacci_of_step P n x y h3 hx hy]⟩

/-! ## Facts about `F` and exact sums -/

theorem F_step (k : Nat) (h : 3 ≤ k) : F k = F (k - 1) + F (k - 2) := by
  obtain ⟨m, rfl⟩ : ∃ m, k = m + 3 := ⟨k - 3, by omega⟩
  rw [F]
  rfl

theorem F_toNat_step (n : Int) (h : 3 ≤ n) :
    F n.toNat = F (n - 1).toNat + F (n - 2).toNat := by
  rw [F_step n.toNat (by omega)]
  rw [show (n - 1).toNat = n.toNat - 1 by omega, show (n - 2).toNat = n.toNat - 2 by omega]

theorem F_toNat_base (n : Int) (h : n = 1 ∨ n = 2) : F n.toNat = 1 := by
  rcases h with rfl | rfl <;> rfl

theorem F_pos (n : Int) (h : 0 < n) : 1 ≤ F n.toNat := by
  refine fibonacci_induction (motive := fun n => 1 ≤ F n.toNat) ?_ ?_ n h
  · intro n hb
    rw [F_toNat_base n hb]
  · intro n h3 h1 _
    rw [F_toNat_step n h3]
    omega

theorem add_of_inRange (P : Platform) (a b : Int) (h : InRange (a + b)) :
    add P a b = a + b := by
  unfold add
  rw [if_pos h]

/-- While `F(n)` is representable, `fibonacci(n)` returns it. -/
theorem fibonacci_value_of_representable (P : Platform) (n : Int) (h : 0 < n)
    (hF : (F n.toNat : Int) ≤ INT_MAX) :
    (fibonacci P n).value = some (F n.toNat : Int) := by
  revert hF
  refine fibonacci_induction
    (motive := fun n => (F n.toNat : Int) ≤ INT_MAX →
      (fibonacci P n).value = some (F n.toNat : Int)) ?_ ?_ n h
  · intro n hb _
    rw [fibonacci_of_base P n hb, F_toNat_base n hb]
    rfl
  · intro n h3 ih1 ih2 hF
    have hs := F_toNat_step n h3
    have hF' : (F (n - 1).toNat : Int) + (F (n - 2).toNat : Int) ≤ INT_MAX := by
      rw [hs] at hF
      exact_mod_cast hF
    have hx := ih1 (by omega)
    have hy := ih2 (by omega)
    rw [fibonacci_of_step P n _ _ h3 hx hy, add_of_inRange, hs]
    · simp
    · unfold InRange INT_MIN
      constructor
      · omega
      · exact hF'

/-! ## Calls made by `fibonacci` -/

/-- Every call of `fibonacci` made while evaluating `fibonacci(n)`, `n > 0`,
has an argument between 1 and `n`. -/
theorem fibonacci_trace_args (P : Platform) (n : Int) (h : 0 < n) :
    ∀ k, Call.fibonacci k ∈ (fibonacci P n).trace → 1 ≤ k ∧ k ≤ n := by
  refine fibonacci_induction
    (motive := fun n => ∀ k, Call.fibonacci k ∈ (fibonacci P n).trace → 1 ≤ k ∧ k ≤ n)
    ?_ ?_ n h
  · intro n hb k hk
    rw [fibonacci_of_base P n hb] at hk
    simp at hk
    omega
  · intro n h3 ih1 ih2 k hk
    obtain ⟨x, hx⟩ := fibonacci_returns P (n - 1) (by omega)
    obtain ⟨y, hy⟩ := fibonacci_returns P (n - 2) (by omega)
    rw [fibonacci_of_step P n x y h3 hx hy] at hk
    have b1 := ih1 k
    have b2 := ih2 k
    cases hP : P.leftToRight <;> simp [hP] at hk <;>
      rcases hk with hk | hk | hk
    all_goals first
      | omega
      | (specialize b1 hk; omega)
      | (specialize b2 hk; omega)

/-- The nested calls of `fibonacci(n)`, `n > 0`: all calls but the first have
an argument between 1 and `n - 1`. -/
theorem fibonacci_nested_args (P : Platform) (n : Int) (h : 0 < n) :
    ∀ k, Call.fibonacci k ∈ (fibonacci P n).trace.tail → 1 ≤ k ∧ k < n := by
  intro k hk
  by_cases hb : n = 1 ∨ n = 2
  · rw [fibonacci_of_base P n hb] at hk
    simp at hk
  · have h3 : 3 ≤ n := by omega
    obtain ⟨x, hx⟩ := fibonacci_returns P (n - 1) (by omega)
    obtain ⟨y, hy⟩ := fibonacci_returns P (n - 2) (by omega)
    rw [fibonacci_of_step P n x y h3 hx hy] at hk
    have a1 := fibonacci_trace_args P (n - 1) (by omega) k
    have a2 := fibonacci_trace_args P (n - 2) (by omega) k
    cases hP : P.leftToRight <;> simp [hP] at hk <;>
      rcases hk with hk | hk
    all_goals first
      | (specialize a1 hk; omega)
      | (specialize a2 hk; omega)

/-- The numbers of calls made by `fibonacci(n)`, `n > 0`, in a form without
subtraction. -/
theorem fibonacci_call_counts (P : Platform) (n : Int) (h : 0 < n) :
    addCalls (fibonacci P n).trace + 1 = F n.toNat ∧
      fibonacciCalls (fibonacci P n).trace + 1 = 2 * F n.toNat := by
  refine fibonacci_induction
    (motive := fun n => addCalls (fibonacci P n).trace + 1 = F n.toNat ∧
      fibonacciCalls (fibonacci P n).trace + 1 = 2 * F n.toNat) ?_ ?_ n h
  · intro n hb
    rw [fibonacci_of_base P n hb, F_toNat_base n hb]
    simp [addCalls, fibonacciCalls]
  · rintro n h3 ⟨ha1, hf1⟩ ⟨ha2, hf2⟩
    obtain ⟨x, hx⟩ := fibonacci_returns P (n - 1) (by omega)
    obtain ⟨y, hy⟩ := fibonacci_returns P (n - 2) (by omega)
    rw [fibonacci_of_step P n x y h3 hx hy, F_toNat_step n h3]
    generalize F (n - 1).toNat = A at ha1 hf1 ⊢
    generalize F (n - 2).toNat = B at ha2 hf2 ⊢
    unfold addCalls fibonacciCalls at *
    cases hP : P.leftToRight <;> simp [hP, List.countP_append, List.countP_cons] <;> omega

/-! ## C1: `fibonacci` and the textbook sequence -/

/-- C1 (as stated, refuted): on the wrap-around platform `fibonacci(47)` returns
`-1323752223`, while `F(47) = 2971215073`; so `fibonacci(47)` does not return the
47th Fibonacci number although `47 > 0`. No platform can do better, since
`F(47)` is not an `int`. -/
theorem fibonacci_47_ne_F :
    (0 : Int) < 47 ∧ (fibonacci wrapping 47).value = some (-1323752223) ∧
      F 47 = 2971215073 ∧
      (fibonacci wrapping 47).value ≠ some (F 47 : Int) ∧
      ¬ ∃ P : Platform, (fibonacci P 47).value = some (F 47 : Int) := by
  have hall : ¬ ∃ P : Platform, (fibonacci P 47).value = some (F 47 : Int) := by
    rintro ⟨P, hP⟩
    have h46 : (fibonacci P (47 - 1)).value = some 1836311903 :=
      fibonacci_value_of_representable P 46 (by decide) (by decide)
    have h45 : (fibonacci P (47 - 2)).value = some 1134903170 :=
      fibonacci_value_of_representable P 45 (by decide) (by decide)
    rw [fibonacci_of_step P 47 _ _ (by decide) h46 h45] at hP
    have hv : add P 1836311903 1134903170 = ((F 47 : Nat) : Int) := by
      simpa using hP
    have hr := P.overflow_inRange 1836311903 1134903170
    have h47 : ((F 47 : Nat) : Int) = 2971215073 := by decide
    unfold add at hv
    rw [if_neg (by decide), h47] at hv
    rw [hv] at hr
    exact absurd hr (by decide)
  have h46 : (fibonacci wrapping (47 - 1)).value = some 1836311903 :=
    fibonacci_value_of_representable wrapping 46 (by decide) (by decide)
  have h45 : (fibonacci wrapping (47 - 2)).value = some 1134903170 :=
    fibonacci_value_of_representable wrapping 45 (by decide) (by decide)
  have h47 : (fibonacci wrapping 47).value = some (-1323752223) := by
    rw [fibonacci_of_step wrapping 47 _ _ (by decide) h46 h45]
    decide
  have hF : F 47 = 2971215073 := by decide
  refine ⟨by decide, h47, hF, ?_, hall⟩
  rw [h47, hF]
  decide

/-- C1 (amended): for every `n > 0` whose Fibonacci number `F(n)` is at most
`INT_MAX`, `fibonacci(n)` returns `F(n)`, on every platform. -/
theorem fibonacci_eq_F (P : Platform) (n : Int) (h : 0 < n)
    (hF : (F n.toNat : Int) ≤ INT_MAX) :
    (fibonacci P n).value = some (F n.toNat : Int) :=
  fibonacci_value_of_representable P n h hF

/-- Witness of C1 (amended) at `n = 46`, the largest index with a representable
Fibonacci number. -/
theorem fibonacci_eq_F_witness :
    (0 : Int) < 46 ∧ (F (46 : Int).toNat : Int) ≤ INT_MAX ∧
      (fibonacci wrappingRtl 46).value = some (F (46 : Int).toNat : Int) :=
  ⟨by decide, by decide, fibonacci_eq_F wrappingRtl 46 (by decide) (by decide)⟩

/-! ## C2: the recurrence -/

/-- C2: for every `n ≥ 3` both recursive calls return, and `fibonacci(n)`
returns what `add` returns for their two results, which is their exact sum
whenever that sum is representable. -/
theorem fibonacci_recurrence (P : Platform) (n : Int) (h : 3 ≤ n) :
    ∃ x y, (fibonacci P (n - 1)).value = some x ∧
      (fibonacci P (n - 2)).value = some y ∧
      (fibonacci P n).value = some (add P x y) ∧
      (InRange (x + y) → (fibonacci P n).value = some (x + y)) := by
  obtain ⟨x, hx⟩ := fibonacci_returns P (n - 1) (by omega)
  obtain ⟨y, hy⟩ := fibonacci_returns P (n - 2) (by omega)
  refine ⟨x, y, hx, hy, ?_, ?_⟩
  · rw [fibonacci_of_step P n x y h hx hy]
  · intro hr
    rw [fibonacci_of_step P n x y h hx hy, add_of_inRange P x y hr]

/-- Witness of C2 at `n = 3`. -/
theorem fibonacci_recurrence_witness :
    (3 : Int) ≤ 3 ∧
      ∃ x y, (fibonacci wrapping (3 - 1)).value = some x ∧
        (fibonacci wrapping (3 - 2)).value = some y ∧
        (fibonacci wrapping 3).value = some (add wrapping x y) ∧
        (InRange (x + y) → (fibonacci wrapping 3).value = some (x + y)) :=
  ⟨by decide, fibonacci_recurrence wrapping 3 (by decide)⟩

/-! ## C3: the base cases -/

/-- C3: `fibonacci(1)` and `fibonacci(2)` return 1, and the only call of each
run is the outer call itself: no recursive call and no call of `add`. -/
theorem fibonacci_base_cases (P : Platform) :
    fibonacci P 1 = ⟨[Call.fibonacci 1], some 1⟩ ∧
      fibonacci P 2 = ⟨[Call.fibonacci 2], some 1⟩ :=
  ⟨fibonacci_of_base P 1 (Or.inl rfl), fibonacci_of_base P 2 (Or.inr rfl)⟩

/-! ## C4: the first ten values -/

/-- C4: the values `fibonacci(1)`, ..., `fibonacci(10)` are
1, 1, 2, 3, 5, 8, 13, 21, 34, 55. -/
theorem fibonacci_first_ten (P : Platform) :
    [1, 2, 3, 4, 5, 6, 7, 8, 9, 10].map (fun i : Int => (fibonacci P i).value) =
      [some 1, some 1, some 2, some 3, some 5, some 8, some 13, some 21, some 34, some 55] := by
  simp only [List.map]
  rw [fibonacci_value_of_representable P 1 (by decide) (by decide),
    fibonacci_value_of_representable P 2 (by decide) (by decide),
    fibonacci_value_of_representable P 3 (by decide) (by decide),
    fibonacci_value_of_representable P 4 (by decide) (by decide),
    fibonacci_value_of_representable P 5 (by decide) (by decide),
    fibonacci_value_of_representable P 6 (by decide) (by decide),
    fibonacci_value_of_representable P 7 (by decide) (by decide),
    fibonacci_value_of_representable P 8 (by decide) (by decide),
    fibonacci_value_of_representable P 9 (by decide) (by decide),
    fibonacci_value_of_representable P 10 (by decide) (by decide)]
  rfl

/-! ## C5: non-positive arguments -/

/-- C5: for every `n ≤ 0` the assertion `n > 0` fails on entry: `fibonacci(n)`
returns no value, and the run consists of the outer call alone, with no
recursive call and no call of `add`. -/
theorem fibonacci_nonpos_aborts (P : Platform) (n : Int) (h : n ≤ 0) :
    (fibonacci P n).value = none ∧ (fibonacci P n).trace = [Call.fibonacci n] := by
  rw [fibonacci_of_nonpos P n h]
  exact ⟨rfl, rfl⟩

/-- Witness of C5 at `n = -5` and at `n = 0`. -/
theorem fibonacci_nonpos_aborts_witness :
    ((-5 : Int) ≤ 0 ∧ (fibonacci wrapping (-5)).value = none ∧
      (fibonacci wrapping (-5)).trace = [Call.fibonacci (-5)]) ∧
    ((0 : Int) ≤ 0 ∧ (fibonacci wrapping 0).value = none ∧
      (fibonacci wrapping 0).trace = [Call.fibonacci 0]) :=
  ⟨⟨by decide, fibonacci_nonpos_aborts wrapping (-5) (by decide)⟩,
    ⟨by decide, fibonacci_nonpos_aborts wrapping 0 (by decide)⟩⟩

/-! ## C6: positive arguments never fail -/

/-- C6: for every `n > 0`, `fibonacci(n)` returns a value; its run starts with
the outer call, and every nested call of `fibonacci` receives an argument `k`
with `1 ≤ k < n`, so that no assertion fails. -/
theorem fibonacci_pos_safe (P : Platform) (n : Int) (h : 0 < n) :
    (∃ v, (fibonacci P n).value = some v) ∧
      (fibonacci P n).trace.head? = some (Call.fibonacci n) ∧
      ∀ k, Call.fibonacci k ∈ (fibonacci P n).trace.tail → 1 ≤ k ∧ k < n := by
  refine ⟨fibonacci_returns P n h, ?_, fibonacci_nested_args P n h⟩
  by_cases hb : n = 1 ∨ n = 2
  · rw [fibonacci_of_base P n hb]
    rfl
  · obtain ⟨x, hx⟩ := fibonacci_returns P (n - 1) (by omega)
    obtain ⟨y, hy⟩ := fibonacci_returns P (n - 2) (by omega)
    rw [fibonacci_of_step P n x y (by omega) hx hy]
    rfl

/-- Witness of C6 at `n = 4`. -/
theorem fibonacci_pos_safe_witness :
    (0 : Int) < 4 ∧
      ((∃ v, (fibonacci wrappingRtl 4).value = some v) ∧
        (fibonacci wrappingRtl 4).trace.head? = some (Call.fibonacci 4) ∧
        ∀ k, Call.fibonacci k ∈ (fibonacci wrappingRtl 4).trace.tail → 1 ≤ k ∧ k < 4) :=
  ⟨by decide, fibonacci_pos_safe wrappingRtl 4 (by decide)⟩

/-! ## C7, C8, C9: `add` -/

/-- C7: whenever the sum of `a` and `b` is representable, `add(a, b)` is exactly
`a + b`; and the four checks of the reference test hold: `add(1,2) = 3`,
`add(1,-1) = 0`, `add(1,-2) = -1`, `add(100,100) = 200`. -/
theorem add_exact (P : Platform) (a b : Int) (h : InRange (a + b)) :
    add P a b = a + b ∧
      add P 1 2 = 3 ∧ add P 1 (-1) = 0 ∧ add P 1 (-2) = -1 ∧ add P 100 100 = 200 :=
  ⟨add_of_inRange P a b h, add_of_inRange P 1 2 (by decide),
    add_of_inRange P 1 (-1) (by decide), add_of_inRange P 1 (-2) (by decide),
    add_of_inRange P 100 100 (by decide)⟩

/-- Witness of C7 at the largest representable sum. -/
theorem add_exact_witness :
    InRange (2147483000 + 647) ∧
      (add wrapping 2147483000 647 = 2147483000 + 647 ∧
        add wrapping 1 2 = 3 ∧ add wrapping 1 (-1) = 0 ∧ add wrapping 1 (-2) = -1 ∧
        add wrapping 100 100 = 200) :=
  ⟨by decide, add_exact wrapping 2147483000 647 (by decide)⟩

/-- C8: `add` is commutative on every pair of arguments whose sum is
representable. -/
theorem add_commutative (P : Platform) (a b : Int) (h : InRange (a + b)) :
    add P a b = add P b a := by
  have h' : InRange (b + a) := by rwa [Int.add_comm]
  rw [add_of_inRange P a b h, add_of_inRange P b a h', Int.add_comm]

/-- Witness of C8 at `a = 1`, `b = -2`. -/
theorem add_commutative_witness :
    InRange (1 + -2) ∧ add wrapping 1 (-2) = add wrapping (-2) 1 :=
  ⟨by decide, add_commutative wrapping 1 (-2) (by decide)⟩

/-- C9: 0 is a right identity of `add`: `add(a, 0) = a` for every `int` value
`a`. -/
theorem add_zero_right (P : Platform) (a : Int) (h : InRange a) : add P a 0 = a := by
  rw [add_of_inRange P a 0 (by rwa [Int.add_zero]), Int.add_zero]

/-- Witness of C9 at `a = INT_MIN`. -/
theorem add_zero_right_witness :
    InRange (-2147483648) ∧ add wrapping (-2147483648) 0 = -2147483648 :=
  ⟨by decide, add_zero_right wrapping (-2147483648) (by decide)⟩

/-! ## C10: the number of calls -/

/-- C10: for every `n ≥ 1` the run of `fibonacci(n)` makes exactly `F(n) - 1`
calls of `add` and `2 * F(n) - 1` calls of `fibonacci`; a base call (`n ≤ 2`)
makes no further call, and a call with `n ≥ 3` consists of the complete runs of
`fibonacci(n-1)` and `fibonacci(n-2)`, in the platform's order, followed by one
call of `add`. -/
theorem fibonacci_calls (P : Platform) (n : Int) (h : 1 ≤ n) :
    (addCalls (fibonacci P n).trace : Int) = (F n.toNat : Int) - 1 ∧
      (fibonacciCalls (fibonacci P n).trace : Int) = 2 * (F n.toNat : Int) - 1 ∧
      (n ≤ 2 → (fibonacci P n).trace = [Call.fibonacci n]) ∧
      (3 ≤ n → ∃ x y, (fibonacci P n).trace =
        Call.fibonacci n ::
          ((if P.leftToRight then (fibonacci P (n - 1)).trace ++ (fibonacci P (n - 2)).trace
            else (fibonacci P (n - 2)).trace ++ (fibonacci P (n - 1)).trace)
            ++ [Call.add x y])) := by
  obtain ⟨ha, hf⟩ := fibonacci_call_counts P n (by omega)
  refine ⟨by omega, by omega, ?_, ?_⟩
  · intro h2
    rw [fibonacci_of_base P n (by omega)]
  · intro h3
    obtain ⟨x, hx⟩ := fibonacci_returns P (n - 1) (by omega)
    obtain ⟨y, hy⟩ := fibonacci_returns P (n - 2) (by omega)
    exact ⟨x, y, by rw [fibonacci_of_step P n x y h3 hx hy]⟩

/-- Witness of C10 at `n = 48`, beyond the representable Fibonacci numbers. -/
theorem fibonacci_calls_witness :
    (1 : Int) ≤ 48 ∧
      ((addCalls (fibonacci wrapping 48).trace : Int) = (F (48 : Int).toNat : Int) - 1 ∧
      (fibonacciCalls (fibonacci wrapping 48).trace : Int) = 2 * (F (48 : Int).toNat : Int) - 1 ∧
      ((48 : Int) ≤ 2 → (fibonacci wrapping 48).trace = [Call.fibonacci 48]) ∧
      ((3 : Int) ≤ 48 → ∃ x y, (fibonacci wrapping 48).trace =
        Call.fibonacci 48 ::
          ((if wrapping.leftToRight then
              (fibonacci wrapping (48 - 1)).trace ++ (fibonacci wrapping (48 - 2)).trace
            else (fibonacci wrapping (48 - 2)).trace ++ (fibonacci wrapping (48 - 1)).trace)
            ++ [Call.add x y]))) :=
  ⟨by decide, fibonacci_calls wrapping 48 (by decide)⟩

/-! ## C11: the demonstration program -/

theorem main_loop_done (P : Platform) (i : Int) (h : 10 < i) :
    main_loop P i = ⟨"", some ()⟩ := by
  rw [main_loop]
  have h' : ¬ i ≤ 10 := by omega
  simp [pure, Proc.ret, h']

theorem main_loop_line (P : Platform) (i v : Int) (s : String) (h : i ≤ 10)
    (hv : (fibonacci P i).value = some v)
    (hrest : main_loop P (i + 1) = ⟨s, some ()⟩) :
    main_loop P i = ⟨"fibo(" ++ fmt_d i ++ ") = " ++ fmt_d v ++ "\n" ++ s, some ()⟩ := by
  rw [main_loop]
  simp [bind, Proc.andThen, Proc.call, printf, h, hv, hrest]

theorem main_loop_from_one (P : Platform) :
    main_loop P 1 =
      ⟨"fibo(1) = 1\nfibo(2) = 1\nfibo(3) = 2\nfibo(4) = 3\nfibo(5) = 5\nfibo(6) = 8\nfibo(7) = 13\nfibo(8) = 21\nfibo(9) = 34\nfibo(10) = 55\n", some ()⟩ := by
  have v (i : Int) (h : 0 < i) (hF : (F i.toNat : Int) ≤ INT_MAX) :=
    fibonacci_value_of_representable P i h hF
  have l11 : main_loop P (10 + 1) = ⟨"", some ()⟩ := main_loop_done P _ (by decide)
  have l10 := main_loop_line P 10 55 _ (by decide) (v 10 (by decide) (by decide)) l11
  have l9 := main_loop_line P 9 34 _ (by decide) (v 9 (by decide) (by decide)) l10
  have l8 := main_loop_line P 8 21 _ (by decide) (v 8 (by decide) (by decide)) l9
  have l7 := main_loop_line P 7 13 _ (by decide) (v 7 (by decide) (by decide)) l8
  have l6 := main_loop_line P 6 8 _ (by decide) (v 6 (by decide) (by decide)) l7
  have l5 := main_loop_line P 5 5 _ (by decide) (v 5 (by decide) (by decide)) l6
  have l4 := main_loop_line P 4 3 _ (by decide) (v 4 (by decide) (by decide)) l5
  have l3 := main_loop_line P 3 2 _ (by decide) (v 3 (by decide) (by decide)) l4
  have l2 := main_loop_line P 2 1 _ (by decide) (v 2 (by decide) (by decide)) l3
  have l1 := main_loop_line P 1 1 _ (by decide) (v 1 (by decide) (by decide)) l2
  rw [l1]
  rfl

/-- C11: the standard output of `main` is exactly the twelve lines
`a = 1, b = 2`, `a + b = 3`, `fibo(1) = 1`, ..., `fibo(10) = 55`, in this order,
each ended by a newline, and `main` returns the exit status 0. -/
theorem main_stdout (P : Platform) :
    (main P).stdout =
        String.join (["a = 1, b = 2", "a + b = 3", "fibo(1) = 1", "fibo(2) = 1", "fibo(3) = 2",
          "fibo(4) = 3", "fibo(5) = 5", "fibo(6) = 8", "fibo(7) = 13", "fibo(8) = 21",
          "fibo(9) = 34", "fibo(10) = 55"].map fun l => l ++ "\n") ∧
      (main P).value = some 0 := by
  have hc : (callAdd P 1 2).value = some 3 := by
    simp [callAdd, bind, pure, Exec.andThen, Exec.ret, enter, add_of_inRange P 1 2 (by decide)]
  unfold main
  simp only [bind, pure, Proc.andThen, Proc.call, Proc.ret, printf, hc, main_loop_from_one P]
  exact ⟨by rfl, trivial⟩

/-! ## Growth of `F` -/

theorem F_le_succ (k : Nat) : F k ≤ F (k + 1) := by
  match k with
  | 0 => decide
  | 1 => decide
  | j + 2 =>
    rw [F_step (j + 2 + 1) (by omega)]
    exact Nat.le_add_right _ _

theorem F_mono {a b : Nat} (h : a ≤ b) : F a ≤ F b := by
  induction b, h using Nat.le_induction with
  | base => exact Nat.le_refl _
  | succ b _ ih => exact Nat.le_trans ih (F_le_succ b)

theorem F_pos_nat (k : Nat) (h : 1 ≤ k) : 1 ≤ F k :=
  Nat.le_trans (by decide : 1 ≤ F 1) (F_mono h)

theorem F_lt_succ (k : Nat) (h : 2 ≤ k) : F k < F (k + 1) := by
  rw [F_step (k + 1) (by omega)]
  have := F_pos_nat (k + 1 - 2) (by omega)
  rw [show k + 1 - 1 = k by omega]
  omega

theorem F_strict {a b : Nat} (h2 : 2 ≤ a) (h : a < b) : F a < F b :=
  Nat.lt_of_lt_of_le (F_lt_succ a h2) (F_mono h)

theorem F_representable (n : Int) (h : n ≤ 46) : (F n.toNat : Int) ≤ INT_MAX := by
  have h1 : F n.toNat ≤ F 46 := F_mono (by omega)
  have h2 : F 46 = 1836311903 := by decide
  unfold INT_MAX
  omega

/-! ## The calls of `add` -/

theorem calls_length (t : List Call) : addCalls t + fibonacciCalls t = t.length := by
  induction t with
  | nil => rfl
  | cons c t ih =>
    unfold addCalls fibonacciCalls at *
    cases c <;> simp [List.countP_cons] <;> omega

/-- While `F(n)` is representable, every call of `add` in the run of
`fibonacci(n)` has a representable exact sum. -/
theorem fibonacci_add_args (P : Platform) (n : Int) (h : 0 < n)
    (hF : (F n.toNat : Int) ≤ INT_MAX) :
    ∀ a b, Call.add a b ∈ (fibonacci P n).trace → InRange (a + b) := by
  revert hF
  refine fibonacci_induction
    (motive := fun n => (F n.toNat : Int) ≤ INT_MAX →
      ∀ a b, Call.add a b ∈ (fibonacci P n).trace → InRange (a + b)) ?_ ?_ n h
  · intro n hb _ a b hab
    rw [fibonacci_of_base P n hb] at hab
    simp at hab
  · intro n h3 ih1 ih2 hF a b hab
    have hs := F_toNat_step n h3
    have hF1 : (F (n - 1).toNat : Int) ≤ INT_MAX := by omega
    have hF2 : (F (n - 2).toNat : Int) ≤ INT_MAX := by omega
    have hx := fibonacci_value_of_representable P (n - 1) (by omega) hF1
    have hy := fibonacci_value_of_representable P (n - 2) (by omega) hF2
    have hsum : INT_MIN ≤ (F (n - 1).toNat : Int) + (F (n - 2).toNat : Int) ∧
        (F (n - 1).toNat : Int) + (F (n - 2).toNat : Int) ≤ INT_MAX := by
      unfold INT_MIN
      omega
    generalize (F (n - 1).toNat : Int) = x at hx hsum
    generalize (F (n - 2).toNat : Int) = y at hy hsum
    rw [fibonacci_of_step P n x y h3 hx hy] at hab
    have b1 := ih1 hF1 a b
    have b2 := ih2 hF2 a b
    cases hP : P.leftToRight <;> simp [hP] at hab <;>
      rcases hab with hab | hab | hab
    all_goals first
      | exact b1 hab
      | exact b2 hab
      | (obtain ⟨rfl, rfl⟩ := hab; exact hsum)

/-- The run of `fibonacci(47)`: its last call is `add(1836311903, 1134903170)`
and its value is what the platform gives for that overflowing sum. -/
theorem fibonacci_47_run (P : Platform) :
    (∃ t, (fibonacci P 47).trace = t ++ [Call.add 1836311903 1134903170]) ∧
      (fibonacci P 47).value = some (P.overflow 1836311903 1134903170) := by
  have h46 : (fibonacci P (47 - 1)).value = some 1836311903 :=
    fibonacci_value_of_representable P 46 (by decide) (by decide)
  have h45 : (fibonacci P (47 - 2)).value = some 1134903170 :=
    fibonacci_value_of_representable P 45 (by decide) (by decide)
  have hadd : add P 1836311903 1134903170 = P.overflow 1836311903 1134903170 := by
    unfold add
    exact if_neg (by decide)
  rw [fibonacci_of_step P 47 _ _ (by decide) h46 h45, hadd]
  exact ⟨⟨_, (List.cons_append _ _ _).symm⟩, rfl⟩

/-! ## Nested calls -/

theorem nestedCall_lt (P : Platform) (k n : Int) (h : NestedCall P k n) : 0 < k ∧ k < n := by
  unfold NestedCall at h
  by_cases hn : 0 < n
  · have := fibonacci_nested_args P n hn k h
    omega
  · rw [fibonacci_of_nonpos P n (by omega)] at h
    simp at h

theorem nestedCall_acc (P : Platform) (n : Int) : Acc (NestedCall P) n := by
  have hsub : Subrelation (NestedCall P) (InvImage (fun a b : Nat => a < b) Int.toNat) := by
    intro k n hk
    have := nestedCall_lt P k n hk
    show k.toNat < n.toNat
    omega
  exact (Subrelation.wf hsub (InvImage.wf Int.toNat Nat.lt_wfRel.wf)).apply n
/-! ## C12: termination -/

/-- C12: for every `n > 0` the run of `fibonacci(n)` ends and returns a value,
after exactly `3 * F(n) - 2` calls. Below 3 no nested call is made; from 3 on
the run is made of the runs of `fibonacci(n-1)` and `fibonacci(n-2)`, whose
arguments are positive and smaller than `n`, and one `add`. Every nested call
has a positive argument smaller than `n`, so that the argument is a decreasing
measure and no infinite chain of nested calls starts from `n`. -/
theorem fibonacci_terminates (P : Platform) (n : Int) (h : 0 < n) :
    (∃ v, (fibonacci P n).value = some v) ∧
      ((fibonacci P n).trace.length : Int) = 3 * (F n.toNat : Int) - 2 ∧
      (n < 3 → ∀ k, ¬ NestedCall P k n) ∧
      (3 ≤ n → (0 < n - 1 ∧ n - 1 < n) ∧ (0 < n - 2 ∧ n - 2 < n) ∧
        ∃ x y, (fibonacci P n).trace =
          Call.fibonacci n ::
            ((if P.leftToRight then (fibonacci P (n - 1)).trace ++ (fibonacci P (n - 2)).trace
              else (fibonacci P (n - 2)).trace ++ (fibonacci P (n - 1)).trace)
              ++ [Call.add x y])) ∧
      (∀ k, NestedCall P k n → 0 < k ∧ k < n ∧ k.toNat < n.toNat) ∧
      Acc (NestedCall P) n := by
  refine ⟨fibonacci_returns P n h, ?_, ?_, ?_, ?_, nestedCall_acc P n⟩
  · obtain ⟨ha, hf⟩ := fibonacci_call_counts P n h
    have hl := calls_length (fibonacci P n).trace
    omega
  · intro h3 k hk
    unfold NestedCall at hk
    rw [fibonacci_of_base P n (by omega)] at hk
    simp at hk
  · intro h3
    obtain ⟨x, hx⟩ := fibonacci_returns P (n - 1) (by omega)
    obtain ⟨y, hy⟩ := fibonacci_returns P (n - 2) (by omega)
    exact ⟨by omega, by omega, x, y, by rw [fibonacci_of_step P n x y h3 hx hy]⟩
  · intro k hk
    have := nestedCall_lt P k n hk
    omega

/-- Witness of C12 at `n = 5`. -/
theorem fibonacci_terminates_witness :
    (0 : Int) < 5 ∧
      ((∃ v, (fibonacci wrapping 5).value = some v) ∧
      ((fibonacci wrapping 5).trace.length : Int) = 3 * (F (5 : Int).toNat : Int) - 2 ∧
      ((5 : Int) < 3 → ∀ k, ¬ NestedCall wrapping k 5) ∧
      ((3 : Int) ≤ 5 → ((0 : Int) < 5 - 1 ∧ (5 : Int) - 1 < 5) ∧
        ((0 : Int) < 5 - 2 ∧ (5 : Int) - 2 < 5) ∧
        ∃ x y, (fibonacci wrapping 5).trace =
          Call.fibonacci 5 ::
            ((if wrapping.leftToRight then
                (fibonacci wrapping (5 - 1)).trace ++ (fibonacci wrapping (5 - 2)).trace
              else (fibonacci wrapping (5 - 2)).trace ++ (fibonacci wrapping (5 - 1)).trace)
              ++ [Call.add x y])) ∧
      (∀ k, NestedCall wrapping k 5 → 0 < k ∧ k < 5 ∧ k.toNat < (5 : Int).toNat) ∧
      Acc (NestedCall wrapping) 5) :=
  ⟨by decide, fibonacci_terminates wrapping 5 (by decide)⟩

/-! ## C13: the overflow boundary -/

/-- C13: with the 32-bit `int`, for every `n` from 1 to 46 each call of `add`
in the run of `fibonacci(n)` has an exact sum within `[-2^31, 2^31 - 1]` and
`fibonacci(n)` returns `F(n)`, with `fibonacci(46) = 1836311903`. The last call
in the run of `fibonacci(47)` is `add(1836311903, 1134903170)`, whose exact sum
`2971215073 = F(47)` exceeds `2^31 - 1`, and `fibonacci(47)` does not return
`F(47)`. -/
theorem fibonacci_overflow_boundary (P : Platform) (n : Int) (h1 : 1 ≤ n) (h46 : n ≤ 46) :
    (INT_MIN = -2 ^ 31 ∧ INT_MAX = 2 ^ 31 - 1) ∧
      (∀ a b, Call.add a b ∈ (fibonacci P n).trace → InRange (a + b)) ∧
      (fibonacci P n).value = some (F n.toNat : Int) ∧
      (fibonacci P 46).value = some 1836311903 ∧
      (∃ t, (fibonacci P 47).trace = t ++ [Call.add 1836311903 1134903170]) ∧
      ((1836311903 : Int) + 1134903170 = 2971215073 ∧ INT_MAX < 2971215073 ∧
        (F 47 : Int) = 2971215073) ∧
      (fibonacci P 47).value ≠ some (F 47 : Int) := by
  have hF := F_representable n h46
  obtain ⟨ht, hv⟩ := fibonacci_47_run P
  refine ⟨⟨by decide, by decide⟩, fibonacci_add_args P n (by omega) hF,
    fibonacci_value_of_representable P n (by omega) hF,
    fibonacci_value_of_representable P 46 (by decide) (by decide), ht,
    ⟨by decide, by decide, by decide⟩, ?_⟩
  rw [hv]
  intro he
  have hr := P.overflow_inRange 1836311903 1134903170
  have h47 : (F 47 : Int) = 2971215073 := by decide
  rw [Option.some.inj he, h47] at hr
  exact absurd hr (by decide)

/-- Witness of C13 at `n = 46`. -/
theorem fibonacci_overflow_boundary_witness :
    (1 : Int) ≤ 46 ∧ (46 : Int) ≤ 46 ∧
      ((INT_MIN = -2 ^ 31 ∧ INT_MAX = 2 ^ 31 - 1) ∧
      (∀ a b, Call.add a b ∈ (fibonacci wrapping 46).trace → InRange (a + b)) ∧
      (fibonacci wrapping 46).value = some (F (46 : Int).toNat : Int) ∧
      (fibonacci wrapping 46).value = some 1836311903 ∧
      (∃ t, (fibonacci wrapping 47).trace = t ++ [Call.add 1836311903 1134903170]) ∧
      ((1836311903 : Int) + 1134903170 = 2971215073 ∧ INT_MAX < 2971215073 ∧
        (F 47 : Int) = 2971215073) ∧
      (fibonacci wrapping 47).value ≠ some (F 47 : Int)) :=
  ⟨by decide, by decide, fibonacci_overflow_boundary wrapping 46 (by decide) (by decide)⟩

/-! ## C14: monotonicity -/

/-- C14: for all `m`, `n` with `1 ≤ m ≤ n ≤ 46`, `fibonacci(m)` and
`fibonacci(n)` return values `a` and `b` with `1 ≤ a ≤ b`, and `a < b` when
`2 ≤ m < n`. -/
theorem fibonacci_monotone (P : Platform) (m n : Int) (h1 : 1 ≤ m) (hmn : m ≤ n)
    (h46 : n ≤ 46) :
    ∃ a b, (fibonacci P m).value = some a ∧ (fibonacci P n).value = some b ∧
      1 ≤ a ∧ a ≤ b ∧ (2 ≤ m → m < n → a < b) := by
  refine ⟨(F m.toNat : Int), (F n.toNat : Int),
    fibonacci_value_of_representable P m (by omega) (F_representable m (by omega)),
    fibonacci_value_of_representable P n (by omega) (F_representable n h46), ?_, ?_, ?_⟩
  · exact_mod_cast F_pos_nat m.toNat (by omega)
  · exact_mod_cast F_mono (show m.toNat ≤ n.toNat by omega)
  · intro h2 hlt
    exact_mod_cast F_strict (show 2 ≤ m.toNat by omega) (show m.toNat < n.toNat by omega)

/-- Witness of C14 at `m = 2`, `n = 46`. -/
theorem fibonacci_monotone_witness :
    (1 : Int) ≤ 2 ∧ (2 : Int) ≤ 46 ∧ (46 : Int) ≤ 46 ∧
      ∃ a b, (fibonacci wrappingRtl 2).value = some a ∧
        (fibonacci wrappingRtl 46).value = some b ∧
        1 ≤ a ∧ a ≤ b ∧ ((2 : Int) ≤ 2 → (2 : Int) < 46 → a < b) :=
  ⟨by decide, by decide, by decide,
    fibonacci_monotone wrappingRtl 2 46 (by decide) (by decide) (by decide)⟩

end PracticalCMake
